import Mathlib

/-!
Verification of the `workq` work-queue library (`workq.py`).

The single component is `WorkQueue`: a FIFO buffer of pending work items
(`_work`, a deque appended at the tail and popped at the head), a set of
already-admitted keys (`_seen`, modelled as a duplicate-free list whose
membership is what matters), a lifetime admission counter (`_count`), the
deduplication flag (`_unique`) and the optional key function (`_key`).

Python values are dynamically typed; we model both work items and derived
keys as inhabitants of one type `α` with decidable equality, so that
`self._key(item) if self._key else item` translates directly.  Hashability,
which only matters for the error-path claims, is modelled by an explicit
oracle `H : α → Bool` in the raising variant `addT` of `add`.
-/

set_option linter.unusedSectionVars false

namespace Workq

/-- State of a `WorkQueue` object, mirroring the attributes set in
`WorkQueue.__init__`: `self._work = collections.deque()`,
`self._seen = set()`, `self._count = 0`, `self._unique = unique`,
`self._key = key`. -/
structure WorkQueue (α : Type) where
  _work : List α
  _seen : List α
  _count : Nat
  _unique : Bool
  _key : Option (α → α)

variable {α : Type} [DecidableEq α]

/-- `key = self._key(item) if self._key else item` (from `WorkQueue.add`). -/
def derivedKey (q : WorkQueue α) (item : α) : α :=
  match q._key with
  | some f => f item
  | none => item

/-- The unconditional tail of `WorkQueue.add`:
`self._work.append(item)` followed by `self._count += 1`. -/
def pushItem (q : WorkQueue α) (item : α) : WorkQueue α :=
  { q with _work := q._work ++ [item], _count := q._count + 1 }

/-- `WorkQueue.add`: if `self._unique`, derive the key; a key already in
`self._seen` means the call returns with no state change; otherwise the key
is recorded in `self._seen` and the item is appended and counted. -/
def add (q : WorkQueue α) (item : α) : WorkQueue α :=
  if q._unique then
    if derivedKey q item ∈ q._seen then q
    else pushItem { q with _seen := derivedKey q item :: q._seen } item
  else pushItem q item

/-- `WorkQueue.extend`: `for item in items: self.add(item)`. -/
def extend (q : WorkQueue α) (items : List α) : WorkQueue α :=
  items.foldl add q

/-- `WorkQueue.__init__`: empty buffer, empty seen set, zero count, then
`self.extend(items)`. -/
def mk (items : List α) (unique : Bool) (key : Option (α → α)) : WorkQueue α :=
  extend ⟨[], [], 0, unique, key⟩ items

/-- `WorkQueue.__next__`: `raise StopIteration()` on an empty buffer is
modelled as `none` (end-of-sequence, not an error); otherwise
`self._work.popleft()` returns the head and the queue keeps the rest. -/
def next (q : WorkQueue α) : Option (α × WorkQueue α) :=
  match q._work with
  | [] => none
  | x :: rest => some (x, { q with _work := rest })

/-- `WorkQueue.__len__`: `len(self._work)`. -/
def len (q : WorkQueue α) : Nat :=
  q._work.length

/-- The `count` property: `self._count`. -/
def count (q : WorkQueue α) : Nat :=
  q._count

/-- The `worked` property: `self._count - len(self._work)`. -/
def worked (q : WorkQueue α) : Nat :=
  q._count - q._work.length

/-- The public mutating operations a client can perform on a live queue. -/
inductive Op (α : Type) where
  | add (item : α)
  | extend (items : List α)
  | produceNext

/-- Apply one operation to the state.  `produceNext` on an empty buffer
raises `StopIteration` before any mutation, so the state is unchanged. -/
def applyOp (q : WorkQueue α) : Op α → WorkQueue α
  | .add i => add q i
  | .extend items => extend q items
  | .produceNext =>
    match next q with
    | none => q
    | some p => p.2

/-- Run a sequence of operations from a given state. -/
def runOps (q : WorkQueue α) (ops : List (Op α)) : WorkQueue α :=
  ops.foldl applyOp q

/-- A state reachable from some construction by some operation sequence. -/
def Reachable (q : WorkQueue α) : Prop :=
  ∃ items unique key ops, q = runOps (mk items unique key) ops

/-- A state reachable from some construction with `unique=True`. -/
def ReachableU (q : WorkQueue α) : Prop :=
  ∃ items key ops, q = runOps (mk items true key) ops

/-! ### Basic lemmas about the operations -/

/-- The items admitted (appended to `_work`) by one `add` call: none when
`unique` dedup suppresses the item, otherwise exactly the item. -/
def addAdmits (q : WorkQueue α) (item : α) : List α :=
  if q._unique = true ∧ derivedKey q item ∈ q._seen then [] else [item]

/-- The items admitted by one `extend` call, in admission order. -/
def extendAdmits (q : WorkQueue α) : List α → List α
  | [] => []
  | i :: is => addAdmits q i ++ extendAdmits (add q i) is

@[simp] theorem pushItem_work (q : WorkQueue α) (i : α) :
    (pushItem q i)._work = q._work ++ [i] := rfl

@[simp] theorem pushItem_count (q : WorkQueue α) (i : α) :
    (pushItem q i)._count = q._count + 1 := rfl

@[simp] theorem pushItem_unique (q : WorkQueue α) (i : α) :
    (pushItem q i)._unique = q._unique := rfl

@[simp] theorem pushItem_key (q : WorkQueue α) (i : α) :
    (pushItem q i)._key = q._key := rfl

@[simp] theorem pushItem_seen (q : WorkQueue α) (i : α) :
    (pushItem q i)._seen = q._seen := rfl

@[simp] theorem add_unique (q : WorkQueue α) (i : α) :
    (add q i)._unique = q._unique := by
  unfold add
  split
  · split <;> rfl
  · rfl

@[simp] theorem add_key (q : WorkQueue α) (i : α) :
    (add q i)._key = q._key := by
  unfold add
  split
  · split <;> rfl
  · rfl

theorem derivedKey_add (q : WorkQueue α) (i j : α) :
    derivedKey (add q i) j = derivedKey q j := by
  unfold derivedKey
  rw [add_key]

theorem add_work (q : WorkQueue α) (i : α) :
    (add q i)._work = q._work ++ addAdmits q i := by
  unfold add addAdmits
  rcases hu : q._unique with _ | _
  · simp
  · by_cases hs : derivedKey q i ∈ q._seen <;> simp [hs]

theorem add_count (q : WorkQueue α) (i : α) :
    (add q i)._count = q._count + (addAdmits q i).length := by
  unfold add addAdmits
  rcases hu : q._unique with _ | _
  · simp
  · by_cases hs : derivedKey q i ∈ q._seen <;> simp [hs]

theorem add_seen_mono (q : WorkQueue α) (i : α) (k : α) (h : k ∈ q._seen) :
    k ∈ (add q i)._seen := by
  unfold add
  split
  · split
    · exact h
    · exact List.mem_cons_of_mem _ h
  · exact h

theorem extend_work (q : WorkQueue α) (items : List α) :
    (extend q items)._work = q._work ++ extendAdmits q items := by
  induction items generalizing q with
  | nil => simp [extend, extendAdmits]
  | cons i is ih =>
    show (extend (add q i) is)._work = _
    rw [ih, add_work, extendAdmits, List.append_assoc]

theorem extend_count (q : WorkQueue α) (items : List α) :
    (extend q items)._count = q._count + (extendAdmits q items).length := by
  induction items generalizing q with
  | nil => simp [extend, extendAdmits]
  | cons i is ih =>
    show (extend (add q i) is)._count = _
    rw [ih, add_count, extendAdmits, List.length_append, Nat.add_assoc]

theorem extend_seen_mono (q : WorkQueue α) (items : List α) (k : α)
    (h : k ∈ q._seen) : k ∈ (extend q items)._seen := by
  induction items generalizing q with
  | nil => exact h
  | cons i is ih => exact ih (add q i) (add_seen_mono q i k h)

/-! ### C5: Scenario D (graph traversal) -/

/-- The five opaque work items of Scenario D. -/
inductive FileItem where
  | f1 | f2 | f3 | f4 | f5
deriving DecidableEq

/-- The Scenario D lookup table:
`f1→[f1,f2,f3]`, `f2→[f1,f3,f4]`, `f3→[]`, `f4→[f5]`, `f5→[]`. -/
def nbrs : FileItem → List FileItem
  | .f1 => [.f1, .f2, .f3]
  | .f2 => [.f1, .f3, .f4]
  | .f3 => []
  | .f4 => [.f5]
  | .f5 => []

/-- The consumer loop of Scenario D: repeatedly pull the next item and,
for each item produced, `extend` the queue with its mapped list; stop at
exhaustion (or when the fuel runs out) and return the production order. -/
def drive {β : Type} [DecidableEq β] (nbr : β → List β) :
    Nat → WorkQueue β → List β
  | 0, _ => []
  | fuel + 1, q =>
    match next q with
    | none => []
    | some (x, q') => x :: drive nbr fuel (extend q' (nbr x))

/-- C5: seeding a default queue with `[f1]` and extending with `nbrs` of
each produced item yields exactly `f1, f2, f3, f4, f5` and then exhaustion.
The fuel `10` exceeds the five pulls actually needed, so the run below ends
by exhaustion (a sixth produced item would make the list longer). -/
theorem scenarioD_production_order :
    drive nbrs 10 (mk [FileItem.f1] true none) =
      [FileItem.f1, FileItem.f2, FileItem.f3, FileItem.f4, FileItem.f5] := by
  decide

/-! ### C2: FIFO production order -/

/-- Run a sequence of operations while recording the trace: the final
state, the list of items produced by the `produceNext` pulls (in
production order), and the list of items actually admitted to the buffer
(in admission order, duplicates suppressed by `add` excluded). -/
def runTrace (q : WorkQueue α) : List (Op α) → WorkQueue α × List α × List α
  | [] => (q, [], [])
  | .add i :: ops =>
    let r := runTrace (add q i) ops
    (r.1, r.2.1, addAdmits q i ++ r.2.2)
  | .extend items :: ops =>
    let r := runTrace (extend q items) ops
    (r.1, r.2.1, extendAdmits q items ++ r.2.2)
  | .produceNext :: ops =>
    match q._work with
    | [] => runTrace q ops
    | x :: rest =>
      let r := runTrace { q with _work := rest } ops
      (r.1, x :: r.2.1, r.2.2)

theorem runTrace_state (q : WorkQueue α) (ops : List (Op α)) :
    (runTrace q ops).1 = runOps q ops := by
  induction ops generalizing q with
  | nil => rfl
  | cons op ops ih =>
    cases op with
    | add i => exact ih (add q i)
    | extend items => exact ih (extend q items)
    | produceNext =>
      rcases hw : q._work with _ | ⟨x, rest⟩
      · simp only [runTrace, runOps, List.foldl_cons, applyOp, next, hw]
        exact ih q
      · simp only [runTrace, runOps, List.foldl_cons, applyOp, next, hw]
        exact ih _

/-- The produced items followed by the still-pending items equal the
initially pending items followed by everything admitted during the run. -/
theorem runTrace_fifo (q : WorkQueue α) (ops : List (Op α)) :
    (runTrace q ops).2.1 ++ (runTrace q ops).1._work
      = q._work ++ (runTrace q ops).2.2 := by
  induction ops generalizing q with
  | nil => simp [runTrace]
  | cons op ops ih =>
    cases op with
    | add i =>
      show (runTrace (add q i) ops).2.1 ++ (runTrace (add q i) ops).1._work
        = q._work ++ (addAdmits q i ++ (runTrace (add q i) ops).2.2)
      rw [ih (add q i), add_work, List.append_assoc]
    | extend items =>
      show (runTrace (extend q items) ops).2.1
          ++ (runTrace (extend q items) ops).1._work
        = q._work ++ (extendAdmits q items ++ (runTrace (extend q items) ops).2.2)
      rw [ih (extend q items), extend_work, List.append_assoc]
    | produceNext =>
      rcases hw : q._work with _ | ⟨x, rest⟩
      · simp only [runTrace, hw]
        rw [ih q, hw]
      · simp only [runTrace, hw]
        rw [List.cons_append, ih { q with _work := rest }]
        rfl

/-! ### Preservation lemmas for whole operation sequences -/

theorem extend_unique (q : WorkQueue α) (items : List α) :
    (extend q items)._unique = q._unique := by
  induction items generalizing q with
  | nil => rfl
  | cons i is ih =>
    show (extend (add q i) is)._unique = _
    rw [ih, add_unique]

theorem extend_key (q : WorkQueue α) (items : List α) :
    (extend q items)._key = q._key := by
  induction items generalizing q with
  | nil => rfl
  | cons i is ih =>
    show (extend (add q i) is)._key = _
    rw [ih, add_key]

theorem applyOp_unique (q : WorkQueue α) (op : Op α) :
    (applyOp q op)._unique = q._unique := by
  cases op with
  | add i => exact add_unique q i
  | extend items => exact extend_unique q items
  | produceNext =>
    show (match next q with | none => q | some p => p.2)._unique = _
    unfold next
    rcases q._work with _ | ⟨x, rest⟩ <;> rfl

theorem applyOp_key (q : WorkQueue α) (op : Op α) :
    (applyOp q op)._key = q._key := by
  cases op with
  | add i => exact add_key q i
  | extend items => exact extend_key q items
  | produceNext =>
    show (match next q with | none => q | some p => p.2)._key = _
    unfold next
    rcases q._work with _ | ⟨x, rest⟩ <;> rfl

theorem runOps_unique (q : WorkQueue α) (ops : List (Op α)) :
    (runOps q ops)._unique = q._unique := by
  induction ops generalizing q with
  | nil => rfl
  | cons op ops ih =>
    show (runOps (applyOp q op) ops)._unique = _
    rw [ih, applyOp_unique]

theorem applyOp_seen_mono (q : WorkQueue α) (op : Op α) (k : α)
    (h : k ∈ q._seen) : k ∈ (applyOp q op)._seen := by
  cases op with
  | add i => exact add_seen_mono q i k h
  | extend items => exact extend_seen_mono q items k h
  | produceNext =>
    show k ∈ (match next q with | none => q | some p => p.2)._seen
    unfold next
    rcases q._work with _ | ⟨x, rest⟩ <;> exact h

theorem runOps_seen_mono (q : WorkQueue α) (ops : List (Op α)) (k : α)
    (h : k ∈ q._seen) : k ∈ (runOps q ops)._seen := by
  induction ops generalizing q with
  | nil => exact h
  | cons op ops ih => exact ih (applyOp q op) (applyOp_seen_mono q op k h)

/-- Dedup rejection: with `unique` on, an item whose derived key was
already seen is discarded with no state change (`add` returns `self`
untouched). -/
theorem add_of_mem_seen (q : WorkQueue α) (i : α) (hu : q._unique = true)
    (h : derivedKey q i ∈ q._seen) : add q i = q := by
  unfold add
  rw [hu]
  simp [h]

/-! ### C3: `worked + len(pending) == count` -/

/-- The buffer never holds more items than the lifetime counter. -/
def InvLen (q : WorkQueue α) : Prop :=
  q._work.length ≤ q._count

theorem invLen_add (q : WorkQueue α) (i : α) (h : InvLen q) :
    InvLen (add q i) := by
  unfold InvLen at *
  rw [add_work, add_count, List.length_append]
  exact Nat.add_le_add_right h _

theorem invLen_extend (q : WorkQueue α) (items : List α) (h : InvLen q) :
    InvLen (extend q items) := by
  induction items generalizing q with
  | nil => exact h
  | cons i is ih => exact ih (add q i) (invLen_add q i h)

theorem invLen_applyOp (q : WorkQueue α) (op : Op α) (h : InvLen q) :
    InvLen (applyOp q op) := by
  cases op with
  | add i => exact invLen_add q i h
  | extend items => exact invLen_extend q items h
  | produceNext =>
    unfold InvLen at h
    rcases hw : q._work with _ | ⟨x, rest⟩
    · simp only [applyOp, next, hw]
      show q._work.length ≤ q._count
      exact h
    · simp only [applyOp, next, hw]
      show rest.length ≤ q._count
      rw [hw] at h
      exact Nat.le_of_succ_le h

theorem invLen_runOps (q : WorkQueue α) (ops : List (Op α)) (h : InvLen q) :
    InvLen (runOps q ops) := by
  induction ops generalizing q with
  | nil => exact h
  | cons op ops ih => exact ih (applyOp q op) (invLen_applyOp q op h)

theorem invLen_mk (items : List α) (unique : Bool) (key : Option (α → α)) :
    InvLen (mk items unique key) :=
  invLen_extend _ items (Nat.le_refl 0)

/-- C3: on every reachable state (any construction followed by any
sequence of `add`/`extend`/produce-next operations), the `worked`
property plus the number of still-pending items equals the `count`
property, i.e. `worked + len(pending) == count`. -/
theorem worked_plus_pending_eq_count (q : WorkQueue α) (h : Reachable q) :
    worked q + len q = count q := by
  obtain ⟨items, unique, key, ops, rfl⟩ := h
  unfold worked len count
  exact Nat.sub_add_cancel (invLen_runOps _ ops (invLen_mk items unique key))

/-- Witness for C3 at the concrete reachable state
`runOps (mk [1,2] true none) [produceNext]`. -/
theorem worked_plus_pending_eq_count_witness :
    Reachable (runOps (mk [1, 2] true (none : Option (Nat → Nat)))
        [Op.produceNext]) ∧
      worked (runOps (mk [1, 2] true (none : Option (Nat → Nat)))
          [Op.produceNext])
        + len (runOps (mk [1, 2] true (none : Option (Nat → Nat)))
          [Op.produceNext])
        = count (runOps (mk [1, 2] true (none : Option (Nat → Nat)))
          [Op.produceNext]) :=
  ⟨⟨[1, 2], true, none, [Op.produceNext], rfl⟩,
    worked_plus_pending_eq_count _ ⟨[1, 2], true, none, [Op.produceNext], rfl⟩⟩

/-! ### C1: deduplication invariant under `unique=True` -/

/-- Invariant of a queue running in dedup mode: the seen keys are
pairwise distinct, the lifetime counter counts exactly the seen keys,
every pending item's derived key has been seen, and no two pending items
share a derived key. -/
def InvU (q : WorkQueue α) : Prop :=
  q._unique = true ∧ q._seen.Nodup ∧ q._count = q._seen.length ∧
    (∀ x ∈ q._work, derivedKey q x ∈ q._seen) ∧
    (q._work.map (derivedKey q)).Nodup

theorem invU_add (q : WorkQueue α) (i : α) (h : InvU q) : InvU (add q i) := by
  obtain ⟨hu, hnd, hc, hsub, hwk⟩ := h
  by_cases hs : derivedKey q i ∈ q._seen
  · rw [add_of_mem_seen q i hu hs]
    exact ⟨hu, hnd, hc, hsub, hwk⟩
  · have hadd : add q i = pushItem { q with _seen := derivedKey q i :: q._seen } i := by
      unfold add
      rw [hu]
      simp [hs]
    have hk : derivedKey q i ∉ List.map (derivedKey q) q._work := by
      intro hmem
      obtain ⟨x, hx, he⟩ := List.mem_map.mp hmem
      exact hs (he ▸ hsub x hx)
    rw [hadd]
    refine ⟨hu, List.nodup_cons.mpr ⟨hs, hnd⟩, ?_, ?_, ?_⟩
    · show q._count + 1 = q._seen.length + 1
      rw [hc]
    · intro x hx
      show derivedKey q x ∈ derivedKey q i :: q._seen
      rcases List.mem_append.mp hx with hx | hx
      · exact List.mem_cons_of_mem _ (hsub x hx)
      · rw [List.mem_singleton.mp hx]
        exact List.mem_cons_self _ _
    · show (List.map (derivedKey q) (q._work ++ [i])).Nodup
      rw [List.map_append, List.nodup_append]
      refine ⟨hwk, List.nodup_singleton _, ?_⟩
      intro a ha hb
      rw [List.mem_singleton.mp hb] at ha
      exact hk ha

theorem invU_extend (q : WorkQueue α) (items : List α) (h : InvU q) :
    InvU (extend q items) := by
  induction items generalizing q with
  | nil => exact h
  | cons i is ih => exact ih (add q i) (invU_add q i h)

theorem invU_applyOp (q : WorkQueue α) (op : Op α) (h : InvU q) :
    InvU (applyOp q op) := by
  cases op with
  | add i => exact invU_add q i h
  | extend items => exact invU_extend q items h
  | produceNext =>
    obtain ⟨hu, hnd, hc, hsub, hwk⟩ := h
    rcases hw : q._work with _ | ⟨x, rest⟩
    · simp only [applyOp, next, hw]
      exact ⟨hu, hnd, hc, hsub, hwk⟩
    · simp only [applyOp, next, hw]
      rw [hw] at hsub hwk
      refine ⟨hu, hnd, hc, ?_, ?_⟩
      · intro y hy
        exact hsub y (List.mem_cons_of_mem _ hy)
      · exact (List.map_cons (derivedKey q) x rest ▸ hwk).of_cons

theorem invU_runOps (q : WorkQueue α) (ops : List (Op α)) (h : InvU q) :
    InvU (runOps q ops) := by
  induction ops generalizing q with
  | nil => exact h
  | cons op ops ih => exact ih (applyOp q op) (invU_applyOp q op h)

theorem invU_mk (items : List α) (key : Option (α → α)) :
    InvU (mk items true key) := by
  refine invU_extend _ items ⟨rfl, List.nodup_nil, rfl, ?_, List.nodup_nil⟩
  intro x hx
  cases hx

/-- C1: in dedup mode (`unique=True`), on every reachable state, no two
pending items share a derived key, each admitted key is counted exactly
once toward the lifetime counter (`_count` equals the number of distinct
seen keys), and any further item whose derived key was already seen is
silently discarded with no state change — so the first item admitted with
a given key is the one retained in the buffer. -/
theorem unique_dedup_invariant (q : WorkQueue α) (h : ReachableU q) :
    (q._work.map (derivedKey q)).Nodup ∧ q._seen.Nodup ∧
      q._count = q._seen.length ∧
      ∀ item, derivedKey q item ∈ q._seen → add q item = q := by
  obtain ⟨items, key, ops, rfl⟩ := h
  obtain ⟨hu, hnd, hc, _, hwk⟩ := invU_runOps _ ops (invU_mk items key)
  exact ⟨hwk, hnd, hc, fun item hmem => add_of_mem_seen _ item hu hmem⟩

/-- Witness for C1 at the concrete reachable state
`mk [1, 2, 1] true none` (the duplicate `1` is discarded). -/
theorem unique_dedup_invariant_witness :
    ReachableU (mk [1, 2, 1] true (none : Option (Nat → Nat))) ∧
      ((mk [1, 2, 1] true (none : Option (Nat → Nat)))._work.map
          (derivedKey (mk [1, 2, 1] true (none : Option (Nat → Nat))))).Nodup ∧
      (mk [1, 2, 1] true (none : Option (Nat → Nat)))._seen.Nodup ∧
      (mk [1, 2, 1] true (none : Option (Nat → Nat)))._count
        = (mk [1, 2, 1] true (none : Option (Nat → Nat)))._seen.length ∧
      ∀ item,
        derivedKey (mk [1, 2, 1] true (none : Option (Nat → Nat))) item
            ∈ (mk [1, 2, 1] true (none : Option (Nat → Nat)))._seen →
          add (mk [1, 2, 1] true (none : Option (Nat → Nat))) item
            = mk [1, 2, 1] true (none : Option (Nat → Nat)) :=
  ⟨⟨[1, 2, 1], none, [], rfl⟩,
    unique_dedup_invariant _ ⟨[1, 2, 1], none, [], rfl⟩⟩

/-- C2: FIFO production order.  First, over any run from a freshly
constructed queue, the items produced by the pulls followed by the items
still pending equal the initially admitted items followed by everything
admitted during the run — i.e. production happens in exact admission
order (post-dedup), regardless of items being added mid-iteration.
Second, locally, each pull on a non-empty buffer removes and returns
exactly the oldest pending item. -/
theorem fifo_production_order (items : List α) (unique : Bool)
    (key : Option (α → α)) (ops : List (Op α)) :
    ((runTrace (mk items unique key) ops).2.1
        ++ (runTrace (mk items unique key) ops).1._work
      = (mk items unique key)._work
        ++ (runTrace (mk items unique key) ops).2.2) ∧
    ∀ (q : WorkQueue α) (x : α) (rest : List α),
      q._work = x :: rest → next q = some (x, { q with _work := rest }) := by
  refine ⟨runTrace_fifo _ ops, ?_⟩
  intro q x rest h
  unfold next
  rw [h]

/-- Witness for C2 with construction `mk [1, 2] true none` and operation
sequence "pull, add 3, pull, pull". -/
theorem fifo_production_order_witness :
    ((runTrace (mk [1, 2] true (none : Option (Nat → Nat)))
            [Op.produceNext, Op.add 3, Op.produceNext, Op.produceNext]).2.1
        ++ (runTrace (mk [1, 2] true (none : Option (Nat → Nat)))
            [Op.produceNext, Op.add 3, Op.produceNext, Op.produceNext]).1._work
      = (mk [1, 2] true (none : Option (Nat → Nat)))._work
        ++ (runTrace (mk [1, 2] true (none : Option (Nat → Nat)))
            [Op.produceNext, Op.add 3, Op.produceNext, Op.produceNext]).2.2) ∧
    ∀ (q : WorkQueue Nat) (x : Nat) (rest : List Nat),
      q._work = x :: rest → next q = some (x, { q with _work := rest }) :=
  fifo_production_order [1, 2] true none
    [Op.produceNext, Op.add 3, Op.produceNext, Op.produceNext]

/-- C4: pulling from a queue with an empty buffer signals end-of-sequence
(`none`, the model of `StopIteration`) rather than returning an item, and
exhaustion is transient: adding an item that the dedup check does not
suppress makes the next pull return exactly that item. -/
theorem exhaustion_transient (q : WorkQueue α) (h : q._work = []) (i : α)
    (hfresh : q._unique = true → derivedKey q i ∉ q._seen) :
    next q = none ∧ ∃ q', next (add q i) = some (i, q') := by
  constructor
  · unfold next
    rw [h]
  · have hw : (add q i)._work = [i] := by
      rw [add_work, h]
      unfold addAdmits
      by_cases hu : q._unique = true
      · simp [hu, hfresh hu]
      · simp [hu]
    refine ⟨{ add q i with _work := [] }, ?_⟩
    unfold next
    rw [hw]

/-- Witness for C4 at the exhausted queue `mk [] true none` and the fresh
item `7`. -/
theorem exhaustion_transient_witness :
    (mk [] true (none : Option (Nat → Nat)))._work = [] ∧
      ((mk [] true (none : Option (Nat → Nat)))._unique = true →
        derivedKey (mk [] true (none : Option (Nat → Nat))) 7
          ∉ (mk [] true (none : Option (Nat → Nat)))._seen) ∧
      (next (mk [] true (none : Option (Nat → Nat))) = none ∧
        ∃ q', next (add (mk [] true (none : Option (Nat → Nat))) 7)
          = some (7, q')) :=
  ⟨rfl, by decide, exhaustion_transient _ rfl 7 (by decide)⟩

/-- C7: with `unique=True`, a key in `seen` stays in `seen` across every
later operation sequence, and adding an item whose derived key equals it
is a no-op — there is no re-admission window even after the original item
has been produced. -/
theorem seen_is_permanent (q : WorkQueue α) (hu : q._unique = true) (k : α)
    (hk : k ∈ q._seen) (ops : List (Op α)) :
    k ∈ (runOps q ops)._seen ∧
      ∀ item, derivedKey (runOps q ops) item = k →
        add (runOps q ops) item = runOps q ops := by
  refine ⟨runOps_seen_mono q ops k hk, ?_⟩
  intro item he
  refine add_of_mem_seen _ item ?_ ?_
  · rw [runOps_unique]
    exact hu
  · rw [he]
    exact runOps_seen_mono q ops k hk

/-- Witness for C7: key `3` seen at `mk [3] true none` survives a pull
that removes the item `3` itself from the buffer. -/
theorem seen_is_permanent_witness :
    (mk [3] true (none : Option (Nat → Nat)))._unique = true ∧
      3 ∈ (mk [3] true (none : Option (Nat → Nat)))._seen ∧
      (3 ∈ (runOps (mk [3] true (none : Option (Nat → Nat)))
            [Op.produceNext])._seen ∧
        ∀ item,
          derivedKey (runOps (mk [3] true (none : Option (Nat → Nat)))
              [Op.produceNext]) item = 3 →
            add (runOps (mk [3] true (none : Option (Nat → Nat)))
                [Op.produceNext]) item
              = runOps (mk [3] true (none : Option (Nat → Nat)))
                [Op.produceNext]) :=
  ⟨rfl, by decide,
    seen_is_permanent _ rfl 3 (by decide) [Op.produceNext]⟩

/-! ### C6: non-unique mode never suppresses and never touches `seen` -/

/-- The total number of items passed to `add`/`extend` over a sequence of
operations, duplicates included. -/
def totalAdded : List (Op α) → Nat
  | [] => 0
  | .add _ :: ops => 1 + totalAdded ops
  | .extend items :: ops => items.length + totalAdded ops
  | .produceNext :: ops => totalAdded ops

theorem add_nonunique (q : WorkQueue α) (i : α) (hu : q._unique = false) :
    add q i = pushItem q i := by
  unfold add
  rw [hu]
  simp

theorem extend_seen_nonunique (q : WorkQueue α) (items : List α)
    (hu : q._unique = false) : (extend q items)._seen = q._seen := by
  induction items generalizing q with
  | nil => rfl
  | cons i is ih =>
    show (extend (add q i) is)._seen = _
    rw [ih (add q i) (by rw [add_unique]; exact hu), add_nonunique q i hu,
      pushItem_seen]

theorem extend_count_nonunique (q : WorkQueue α) (items : List α)
    (hu : q._unique = false) :
    (extend q items)._count = q._count + items.length := by
  induction items generalizing q with
  | nil => rfl
  | cons i is ih =>
    show (extend (add q i) is)._count = _
    rw [ih (add q i) (by rw [add_unique]; exact hu), add_nonunique q i hu,
      pushItem_count, List.length_cons]
    omega

theorem runOps_seen_nonunique (q : WorkQueue α) (ops : List (Op α))
    (hu : q._unique = false) : (runOps q ops)._seen = q._seen := by
  induction ops generalizing q with
  | nil => rfl
  | cons op ops ih =>
    show (runOps (applyOp q op) ops)._seen = _
    rw [ih (applyOp q op) (by rw [applyOp_unique]; exact hu)]
    cases op with
    | add i => rw [show applyOp q (.add i) = add q i from rfl,
        add_nonunique q i hu, pushItem_seen]
    | extend items => exact extend_seen_nonunique q items hu
    | produceNext =>
      show (match next q with | none => q | some p => p.2)._seen = _
      unfold next
      rcases q._work with _ | ⟨x, rest⟩ <;> rfl

theorem runOps_count_nonunique (q : WorkQueue α) (ops : List (Op α))
    (hu : q._unique = false) :
    (runOps q ops)._count = q._count + totalAdded ops := by
  induction ops generalizing q with
  | nil => rfl
  | cons op ops ih =>
    show (runOps (applyOp q op) ops)._count = _
    rw [ih (applyOp q op) (by rw [applyOp_unique]; exact hu)]
    cases op with
    | add i =>
      rw [show applyOp q (.add i) = add q i from rfl, add_nonunique q i hu,
        pushItem_count]
      show q._count + 1 + totalAdded ops = q._count + (1 + totalAdded ops)
      omega
    | extend items =>
      rw [show applyOp q (.extend items) = extend q items from rfl,
        extend_count_nonunique q items hu]
      show q._count + items.length + totalAdded ops
        = q._count + (items.length + totalAdded ops)
      omega
    | produceNext =>
      have hc : (applyOp q .produceNext)._count = q._count := by
        show (match next q with | none => q | some p => p.2)._count = _
        unfold next
        rcases q._work with _ | ⟨x, rest⟩ <;> rfl
      rw [hc]
      rfl

/-- C6: from a queue constructed with `unique=False`, after any sequence
of operations the `seen` set is still empty, the lifetime counter equals
the total number of items ever passed in (duplicates included), and a
further `add` is never suppressed — it unconditionally appends the item
and counts it. -/
theorem nonunique_never_suppresses (items : List α) (key : Option (α → α))
    (ops : List (Op α)) :
    (runOps (mk items false key) ops)._seen = [] ∧
      (runOps (mk items false key) ops)._count
        = items.length + totalAdded ops ∧
      ∀ i, add (runOps (mk items false key) ops) i
        = pushItem (runOps (mk items false key) ops) i := by
  have hu : (mk items false key)._unique = false := by
    show (extend _ items)._unique = false
    rw [extend_unique]
  have hu2 : (runOps (mk items false key) ops)._unique = false := by
    rw [runOps_unique]
    exact hu
  refine ⟨?_, ?_, fun i => add_nonunique _ i hu2⟩
  · rw [runOps_seen_nonunique _ ops hu]
    show (extend _ items)._seen = []
    rw [extend_seen_nonunique _ items rfl]
  · rw [runOps_count_nonunique _ ops hu]
    show (extend (⟨[], [], 0, false, key⟩ : WorkQueue α) items)._count
        + totalAdded ops = items.length + totalAdded ops
    rw [extend_count_nonunique _ items rfl]
    show 0 + items.length + totalAdded ops = items.length + totalAdded ops
    omega

/-! ### C8: produce-next is the sole remover, and a frame theorem for it -/

/-- C8: `add` and `extend` only ever append to the pending buffer (the
old buffer is a prefix of the new one), and a successful pull removes
exactly the head item while leaving `seen`, the lifetime counter, and the
configuration flags untouched. -/
theorem produceNext_sole_remover (q : WorkQueue α) :
    (∀ i, ∃ s, (add q i)._work = q._work ++ s) ∧
      (∀ items, ∃ s, (extend q items)._work = q._work ++ s) ∧
      ∀ (x : α) (q' : WorkQueue α), next q = some (x, q') →
        q._work = x :: q'._work ∧ q'._seen = q._seen ∧
          q'._count = q._count ∧ q'._unique = q._unique ∧
          q'._key = q._key := by
  refine ⟨fun i => ⟨addAdmits q i, add_work q i⟩,
    fun items => ⟨extendAdmits q items, extend_work q items⟩, ?_⟩
  intro x q' hnext
  unfold next at hnext
  rcases hw : q._work with _ | ⟨y, rest⟩
  · rw [hw] at hnext
    cases hnext
  · rw [hw] at hnext
    simp only [Option.some.injEq, Prod.mk.injEq] at hnext
    obtain ⟨rfl, rfl⟩ := hnext
    exact ⟨rfl, rfl, rfl, rfl, rfl⟩

/-- Witness for C8 at the concrete state `mk [1, 2] true none`. -/
theorem produceNext_sole_remover_witness :
    (∀ i, ∃ s, (add (mk [1, 2] true (none : Option (Nat → Nat))) i)._work
      = (mk [1, 2] true (none : Option (Nat → Nat)))._work ++ s) ∧
      (∀ items, ∃ s,
        (extend (mk [1, 2] true (none : Option (Nat → Nat))) items)._work
          = (mk [1, 2] true (none : Option (Nat → Nat)))._work ++ s) ∧
      ∀ (x : Nat) (q' : WorkQueue Nat),
        next (mk [1, 2] true (none : Option (Nat → Nat))) = some (x, q') →
          (mk [1, 2] true (none : Option (Nat → Nat)))._work = x :: q'._work ∧
            q'._seen = (mk [1, 2] true (none : Option (Nat → Nat)))._seen ∧
            q'._count = (mk [1, 2] true (none : Option (Nat → Nat)))._count ∧
            q'._unique = (mk [1, 2] true (none : Option (Nat → Nat)))._unique ∧
            q'._key = (mk [1, 2] true (none : Option (Nat → Nat)))._key :=
  produceNext_sole_remover (mk [1, 2] true none)

/-! ### C9 and C10: the unhashable-key error path of `add`

In CPython, the first operation in `add` that hashes the derived key is
the membership test `key in self._seen`; it precedes `self._seen.add`,
`self._work.append` and `self._count += 1`.  `addT` transcribes `add`
with an explicit hashability oracle `H`: the second component of the
result is the `TypeError` raised (if any) and the first component is the
object's state when control leaves the method — on a raise, the state at
the raise point. -/
def addT (H : α → Bool) (q : WorkQueue α) (item : α) :
    WorkQueue α × Option String :=
  if q._unique then
    if H (derivedKey q item) = false then (q, some "unhashable type")
    else if derivedKey q item ∈ q._seen then (q, none)
    else (pushItem { q with _seen := derivedKey q item :: q._seen } item, none)
  else (pushItem q item, none)

/-- C9: with `unique=True`, if the derived key of the item is not
hashable, `add` raises the `TypeError` before performing any mutation:
the resulting state is exactly the pre-call state (`pending`, `seen` and
the lifetime counter all unchanged). -/
theorem add_unhashable_is_atomic (H : α → Bool) (q : WorkQueue α) (i : α)
    (hu : q._unique = true) (hH : H (derivedKey q i) = false) :
    addT H q i = (q, some "unhashable type") := by
  unfold addT
  rw [hu]
  simp [hH]

/-- Witness for C9: an always-unhashable oracle on the dedup queue
`mk [] true none` with item `0`. -/
theorem add_unhashable_is_atomic_witness :
    (mk [] true (none : Option (Nat → Nat)))._unique = true ∧
      (fun _ : Nat => false)
          (derivedKey (mk [] true (none : Option (Nat → Nat))) 0) = false ∧
      addT (fun _ => false) (mk [] true (none : Option (Nat → Nat))) 0
        = (mk [] true (none : Option (Nat → Nat)), some "unhashable type") :=
  ⟨rfl, rfl, add_unhashable_is_atomic (fun _ => false) _ 0 rfl rfl⟩

/-- C10: with `unique=False`, `add` skips the whole dedup block: it
succeeds for every item whatever the hashability oracle says (so the
unhashable-key error branch is unreachable), it never consults the key
function (the outcome is the same for every installed `key`), and it
unconditionally appends the item and counts it. -/
theorem nonunique_add_never_raises (q : WorkQueue α) (hu : q._unique = false)
    (i : α) :
    (∀ H : α → Bool, addT H q i = (pushItem q i, none)) ∧
      ∀ (H : α → Bool) (kf : Option (α → α)),
        addT H { q with _key := kf } i
          = (pushItem { q with _key := kf } i, none) := by
  constructor
  · intro H
    unfold addT
    rw [hu]
    simp
  · intro H kf
    unfold addT
    show (if q._unique = true then _ else _) = _
    rw [hu]
    simp

/-- Witness for C10 on the non-dedup queue `mk [] false none` with
item `0`. -/
theorem nonunique_add_never_raises_witness :
    (mk [] false (none : Option (Nat → Nat)))._unique = false ∧
      (∀ H : Nat → Bool,
        addT H (mk [] false (none : Option (Nat → Nat))) 0
          = (pushItem (mk [] false (none : Option (Nat → Nat))) 0, none)) ∧
      ∀ (H : Nat → Bool) (kf : Option (Nat → Nat)),
        addT H { mk [] false (none : Option (Nat → Nat)) with _key := kf } 0
          = (pushItem
              { mk [] false (none : Option (Nat → Nat)) with _key := kf } 0,
            none) :=
  ⟨rfl, nonunique_add_never_raises _ rfl 0⟩

end Workq
